import Mathlib

/-!
Verification of the `shed` quantum-visualization helpers against their
natural-language specification.  The Python sources are shallowly embedded:
quantum states are lists of complex amplitudes, qutip operators are complex
matrices over `Fin d`, numpy's real arithmetic is modelled by `ℝ`, and calls
into the external solver `qu.mesolve` are modelled by returning the argument
package handed to the solver.
-/

open scoped Matrix

noncomputable section

/-- numpy's `arctan2 y x`: the angle of the point `(x, y)`, i.e. the argument
of the complex number `x + y·i`. -/
def arctan2 (y x : ℝ) : ℝ := Complex.arg ⟨x, y⟩

/-- Embedding of `bloch_spherical_coords` (src/shed/bloch_sphere.py).
`state[0,0]` and `state[1,0]` become the entries at indices 0 and 1;
`np.abs`/`np.angle` become `Complex.abs`/`Complex.arg`. -/
def bloch_spherical_coords (state : List ℂ) : ℝ × ℝ × ℝ :=
  let a := state.getD 0 0
  let b := state.getD 1 0
  let a_abs := Complex.abs a
  let a_angle := Complex.arg a
  let b_abs := Complex.abs b
  let b_angle := Complex.arg b
  let r := Real.sqrt (a_abs ^ 2 + b_abs ^ 2)
  let θ := 2 * arctan2 b_abs a_abs
  let ϕ := b_angle - a_angle
  (r, θ, ϕ)

/-- Embedding of `bloch_vector` (src/shed/bloch_sphere.py). -/
def bloch_vector (state : List ℂ) : ℝ × ℝ × ℝ :=
  let arr := bloch_spherical_coords state
  let r := arr.1
  let θ := arr.2.1
  let ϕ := arr.2.2
  (r * Real.sin θ * Real.cos ϕ,
   r * Real.sin θ * Real.sin ϕ,
   r * Real.cos θ)

end

lemma arctan2_nonneg (y x : ℝ) (hy : 0 ≤ y) : 0 ≤ arctan2 y x :=
  Complex.arg_nonneg_iff.mpr hy

lemma arctan2_le_pi_div_two (y x : ℝ) (hx : 0 ≤ x) : arctan2 y x ≤ Real.pi / 2 := by
  have h : |Complex.arg ⟨x, y⟩| ≤ Real.pi / 2 :=
    Complex.abs_arg_le_pi_div_two_iff.mpr hx
  exact (abs_le.mp h).2

/-- C1: for every state vector with at least two complex amplitude entries
`a` (index 0) and `b` (index 1), `bloch_spherical_coords` returns
`r = sqrt (|a|² + |b|²)` and `θ = 2·atan2 (|b|) (|a|)`, with `θ ∈ [0, π]`
always and `r ∈ [0, 1]` whenever `|a|² + |b|² ≤ 1`; in particular for
`a = b = 1/2` (amplitude mass beyond index 1) the radius satisfies `r < 1`. -/
theorem bloch_spherical_coords_radius_polar_spec (state : List ℂ)
    (h : 2 ≤ state.length) :
    (bloch_spherical_coords state).1 =
        Real.sqrt (Complex.abs (state.getD 0 0) ^ 2 + Complex.abs (state.getD 1 0) ^ 2) ∧
    (bloch_spherical_coords state).2.1 =
        2 * arctan2 (Complex.abs (state.getD 1 0)) (Complex.abs (state.getD 0 0)) ∧
    0 ≤ (bloch_spherical_coords state).2.1 ∧
    (bloch_spherical_coords state).2.1 ≤ Real.pi ∧
    (Complex.abs (state.getD 0 0) ^ 2 + Complex.abs (state.getD 1 0) ^ 2 ≤ 1 →
      0 ≤ (bloch_spherical_coords state).1 ∧ (bloch_spherical_coords state).1 ≤ 1) ∧
    (state.getD 0 0 = 1 / 2 ∧ state.getD 1 0 = 1 / 2 →
      (bloch_spherical_coords state).1 < 1) := by
  refine ⟨rfl, rfl, ?_, ?_, ?_, ?_⟩
  · have := arctan2_nonneg (Complex.abs (state.getD 1 0)) (Complex.abs (state.getD 0 0))
      (Complex.abs.nonneg (state.getD 1 0))
    show 0 ≤ 2 * arctan2 (Complex.abs (state.getD 1 0)) (Complex.abs (state.getD 0 0))
    linarith
  · have := arctan2_le_pi_div_two (Complex.abs (state.getD 1 0)) (Complex.abs (state.getD 0 0))
      (Complex.abs.nonneg (state.getD 0 0))
    show 2 * arctan2 (Complex.abs (state.getD 1 0)) (Complex.abs (state.getD 0 0)) ≤ Real.pi
    linarith
  · intro hle
    refine ⟨Real.sqrt_nonneg _, ?_⟩
    calc Real.sqrt (Complex.abs (state.getD 0 0) ^ 2 + Complex.abs (state.getD 1 0) ^ 2)
        ≤ Real.sqrt 1 := Real.sqrt_le_sqrt hle
      _ = 1 := Real.sqrt_one
  · rintro ⟨ha, hb⟩
    have habs : Complex.abs (1 / 2 : ℂ) = 1 / 2 := by
      rw [show (1 / 2 : ℂ) = ((1 / 2 : ℝ) : ℂ) by norm_num, Complex.abs_ofReal]
      norm_num
    show Real.sqrt (Complex.abs (state.getD 0 0) ^ 2 + Complex.abs (state.getD 1 0) ^ 2) < 1
    rw [ha, hb, habs]
    rw [Real.sqrt_lt' one_pos]
    norm_num

/-- Witness for C1 at the concrete state `[1/2, 1/2, c]`. -/
theorem bloch_spherical_coords_radius_polar_spec_witness :
    2 ≤ ([1 / 2, 1 / 2, (1 / 2 : ℂ)] : List ℂ).length ∧
    ((bloch_spherical_coords [1 / 2, 1 / 2, (1 / 2 : ℂ)]).1 =
        Real.sqrt (Complex.abs (([1 / 2, 1 / 2, (1 / 2 : ℂ)] : List ℂ).getD 0 0) ^ 2 +
          Complex.abs (([1 / 2, 1 / 2, (1 / 2 : ℂ)] : List ℂ).getD 1 0) ^ 2) ∧
    (bloch_spherical_coords [1 / 2, 1 / 2, (1 / 2 : ℂ)]).2.1 =
        2 * arctan2 (Complex.abs (([1 / 2, 1 / 2, (1 / 2 : ℂ)] : List ℂ).getD 1 0))
          (Complex.abs (([1 / 2, 1 / 2, (1 / 2 : ℂ)] : List ℂ).getD 0 0)) ∧
    0 ≤ (bloch_spherical_coords [1 / 2, 1 / 2, (1 / 2 : ℂ)]).2.1 ∧
    (bloch_spherical_coords [1 / 2, 1 / 2, (1 / 2 : ℂ)]).2.1 ≤ Real.pi ∧
    (Complex.abs (([1 / 2, 1 / 2, (1 / 2 : ℂ)] : List ℂ).getD 0 0) ^ 2 +
        Complex.abs (([1 / 2, 1 / 2, (1 / 2 : ℂ)] : List ℂ).getD 1 0) ^ 2 ≤ 1 →
      0 ≤ (bloch_spherical_coords [1 / 2, 1 / 2, (1 / 2 : ℂ)]).1 ∧
        (bloch_spherical_coords [1 / 2, 1 / 2, (1 / 2 : ℂ)]).1 ≤ 1) ∧
    (([1 / 2, 1 / 2, (1 / 2 : ℂ)] : List ℂ).getD 0 0 = 1 / 2 ∧
        ([1 / 2, 1 / 2, (1 / 2 : ℂ)] : List ℂ).getD 1 0 = 1 / 2 →
      (bloch_spherical_coords [1 / 2, 1 / 2, (1 / 2 : ℂ)]).1 < 1)) :=
  ⟨by simp, bloch_spherical_coords_radius_polar_spec _ (by simp)⟩

/-- C2 counterexample: at the state `[-1, -i]` the code returns
`ϕ = arg (-i) - arg (-1) = -3π/2`, which lies outside `(-π, π]`:
the code performs no wrapping of the angle difference. -/
theorem bloch_phi_not_wrapped_counterexample :
    2 ≤ ([-1, -Complex.I] : List ℂ).length ∧
    ¬ (-Real.pi < (bloch_spherical_coords [-1, -Complex.I]).2.2) := by
  constructor
  · simp
  · have hϕ : (bloch_spherical_coords [-1, -Complex.I]).2.2
        = Complex.arg (-Complex.I) - Complex.arg (-1) := rfl
    rw [hϕ, Complex.arg_neg_I, Complex.arg_neg_one]
    have hπ := Real.pi_pos
    intro hcon
    linarith

/-- C2 (amended): for every state vector with at least two complex entries
`a` and `b`, the third component ϕ returned by `bloch_spherical_coords` is
exactly `arg b - arg a` with no wrapping applied, so it lies in the open
interval `(-2π, 2π)` (and is trivially congruent to `arg b - arg a`
mod 2π) but not necessarily in `(-π, π]`. -/
theorem bloch_phi_unwrapped_difference (state : List ℂ) (h : 2 ≤ state.length) :
    (bloch_spherical_coords state).2.2
        = Complex.arg (state.getD 1 0) - Complex.arg (state.getD 0 0) ∧
    -(2 * Real.pi) < (bloch_spherical_coords state).2.2 ∧
    (bloch_spherical_coords state).2.2 < 2 * Real.pi := by
  refine ⟨rfl, ?_, ?_⟩
  · have h1 := Complex.neg_pi_lt_arg (state.getD 1 0)
    have h2 := Complex.arg_le_pi (state.getD 0 0)
    show -(2 * Real.pi) < Complex.arg (state.getD 1 0) - Complex.arg (state.getD 0 0)
    linarith
  · have h1 := Complex.arg_le_pi (state.getD 1 0)
    have h2 := Complex.neg_pi_lt_arg (state.getD 0 0)
    show Complex.arg (state.getD 1 0) - Complex.arg (state.getD 0 0) < 2 * Real.pi
    linarith

/-- Witness for the amended C2 at the concrete state `[1, 0]`. -/
theorem bloch_phi_unwrapped_difference_witness :
    2 ≤ ([1, 0] : List ℂ).length ∧
    ((bloch_spherical_coords [1, 0]).2.2
        = Complex.arg (([1, 0] : List ℂ).getD 1 0) - Complex.arg (([1, 0] : List ℂ).getD 0 0) ∧
    -(2 * Real.pi) < (bloch_spherical_coords [1, 0]).2.2 ∧
    (bloch_spherical_coords [1, 0]).2.2 < 2 * Real.pi) :=
  ⟨by simp, bloch_phi_unwrapped_difference _ (by simp)⟩

lemma spherical_norm_sq (r θ ϕ : ℝ) :
    (r * Real.sin θ * Real.cos ϕ) ^ 2 + (r * Real.sin θ * Real.sin ϕ) ^ 2 +
      (r * Real.cos θ) ^ 2 = r ^ 2 := by
  have h1 := Real.sin_sq_add_cos_sq θ
  have h2 := Real.sin_sq_add_cos_sq ϕ
  linear_combination (r ^ 2 * Real.sin θ ^ 2) * h2 + r ^ 2 * h1

/-- C3: `bloch_vector` composes the spherical coordinates into Cartesian
form, the squared norm always equals `r²`, and for a normalized two-level
state (`|a|² + |b|² = 1`) the squared norm is exactly 1. -/
theorem bloch_vector_norm_spec (state : List ℂ) (h : 2 ≤ state.length) :
    ((bloch_vector state).1 =
        (bloch_spherical_coords state).1 * Real.sin (bloch_spherical_coords state).2.1 *
          Real.cos (bloch_spherical_coords state).2.2 ∧
      (bloch_vector state).2.1 =
        (bloch_spherical_coords state).1 * Real.sin (bloch_spherical_coords state).2.1 *
          Real.sin (bloch_spherical_coords state).2.2 ∧
      (bloch_vector state).2.2 =
        (bloch_spherical_coords state).1 * Real.cos (bloch_spherical_coords state).2.1) ∧
    (bloch_vector state).1 ^ 2 + (bloch_vector state).2.1 ^ 2 + (bloch_vector state).2.2 ^ 2 =
      (bloch_spherical_coords state).1 ^ 2 ∧
    (Complex.abs (state.getD 0 0) ^ 2 + Complex.abs (state.getD 1 0) ^ 2 = 1 →
      (bloch_vector state).1 ^ 2 + (bloch_vector state).2.1 ^ 2 + (bloch_vector state).2.2 ^ 2
        = 1) := by
  have hnorm : (bloch_vector state).1 ^ 2 + (bloch_vector state).2.1 ^ 2 +
      (bloch_vector state).2.2 ^ 2 = (bloch_spherical_coords state).1 ^ 2 :=
    spherical_norm_sq (bloch_spherical_coords state).1 (bloch_spherical_coords state).2.1
      (bloch_spherical_coords state).2.2
  refine ⟨⟨rfl, rfl, rfl⟩, hnorm, ?_⟩
  intro hn
  have hr : (bloch_spherical_coords state).1 ^ 2 =
      Complex.abs (state.getD 0 0) ^ 2 + Complex.abs (state.getD 1 0) ^ 2 :=
    Real.sq_sqrt (by positivity)
  rw [hnorm, hr, hn]

/-- Witness for C3 at the concrete state `[1, 0]`. -/
theorem bloch_vector_norm_spec_witness :
    2 ≤ ([1, 0] : List ℂ).length ∧
    (((bloch_vector [1, 0]).1 =
        (bloch_spherical_coords [1, 0]).1 * Real.sin (bloch_spherical_coords [1, 0]).2.1 *
          Real.cos (bloch_spherical_coords [1, 0]).2.2 ∧
      (bloch_vector [1, 0]).2.1 =
        (bloch_spherical_coords [1, 0]).1 * Real.sin (bloch_spherical_coords [1, 0]).2.1 *
          Real.sin (bloch_spherical_coords [1, 0]).2.2 ∧
      (bloch_vector [1, 0]).2.2 =
        (bloch_spherical_coords [1, 0]).1 * Real.cos (bloch_spherical_coords [1, 0]).2.1) ∧
    (bloch_vector [1, 0]).1 ^ 2 + (bloch_vector [1, 0]).2.1 ^ 2 +
        (bloch_vector [1, 0]).2.2 ^ 2 = (bloch_spherical_coords [1, 0]).1 ^ 2 ∧
    (Complex.abs (([1, 0] : List ℂ).getD 0 0) ^ 2 +
        Complex.abs (([1, 0] : List ℂ).getD 1 0) ^ 2 = 1 →
      (bloch_vector [1, 0]).1 ^ 2 + (bloch_vector [1, 0]).2.1 ^ 2 +
        (bloch_vector [1, 0]).2.2 ^ 2 = 1)) :=
  ⟨by simp, bloch_vector_norm_spec _ (by simp)⟩

lemma complex_mk_one_zero : (⟨1, 0⟩ : ℂ) = 1 := by
  apply Complex.ext <;> simp

lemma complex_mk_zero_one : (⟨0, 1⟩ : ℂ) = Complex.I := by
  apply Complex.ext <;> simp

lemma arctan2_zero_one : arctan2 0 1 = 0 := by
  unfold arctan2
  rw [complex_mk_one_zero, Complex.arg_one]

lemma arctan2_one_zero : arctan2 1 0 = Real.pi / 2 := by
  unfold arctan2
  rw [complex_mk_zero_one, Complex.arg_I]

lemma arctan2_self_pos (t : ℝ) (ht : 0 < t) : arctan2 t t = Real.pi / 4 := by
  unfold arctan2
  have h2 : Real.sqrt 2 * Real.sqrt 2 = 2 := Real.mul_self_sqrt (by norm_num)
  have hmk : (⟨t, t⟩ : ℂ) = ((t * Real.sqrt 2 : ℝ) : ℂ) *
      ((Real.cos (Real.pi / 4) : ℂ) + (Real.sin (Real.pi / 4) : ℂ) * Complex.I) := by
    apply Complex.ext <;>
      simp [Real.cos_pi_div_four, Real.sin_pi_div_four] <;>
      linear_combination (-(t / 2)) * h2
  rw [hmk, Complex.arg_real_mul _ (by positivity), Complex.ofReal_cos, Complex.ofReal_sin]
  exact Complex.arg_cos_add_sin_mul_I (Set.mem_Ioc.mpr
    ⟨by linarith [Real.pi_pos], by linarith [Real.pi_pos]⟩)

/-- C4: `bloch_vector` maps the ground state `[1, 0]` to `(0, 0, 1)`, the
excited state `[0, 1]` to `(0, 0, -1)`, and the equal superposition
`a = b = 1/√2` with zero relative phase to `(1, 0, 0)`. -/
theorem bloch_vector_cardinal_states :
    bloch_vector [1, 0] = (0, 0, 1) ∧
    bloch_vector [0, 1] = (0, 0, -1) ∧
    bloch_vector [(((Real.sqrt 2)⁻¹ : ℝ) : ℂ), (((Real.sqrt 2)⁻¹ : ℝ) : ℂ)] = (1, 0, 0) := by
  refine ⟨?_, ?_, ?_⟩
  · have hs : bloch_spherical_coords [1, 0] = (1, 0, 0) := by
      unfold bloch_spherical_coords
      norm_num [arctan2_zero_one, Complex.arg_zero, Complex.arg_one, Real.sqrt_one]
    unfold bloch_vector
    rw [hs]
    norm_num
  · have hs : bloch_spherical_coords [0, 1] = (1, Real.pi, 0) := by
      unfold bloch_spherical_coords
      norm_num [arctan2_one_zero, Complex.arg_zero, Complex.arg_one, Real.sqrt_one]
      ring
    unfold bloch_vector
    rw [hs]
    norm_num [Real.sin_pi, Real.cos_pi]
  · have ht : (0 : ℝ) < (Real.sqrt 2)⁻¹ := by positivity
    have ht2 : ((Real.sqrt 2)⁻¹ : ℝ) ^ 2 = 1 / 2 := by
      rw [inv_pow, Real.sq_sqrt (by norm_num : (0 : ℝ) ≤ 2)]
      norm_num
    have hs : bloch_spherical_coords
        [(((Real.sqrt 2)⁻¹ : ℝ) : ℂ), (((Real.sqrt 2)⁻¹ : ℝ) : ℂ)] = (1, Real.pi / 2, 0) := by
      unfold bloch_spherical_coords
      norm_num [Complex.abs_ofReal, abs_of_nonneg ht.le, abs_of_nonneg (Real.sqrt_nonneg 2),
        Complex.arg_ofReal_of_nonneg ht.le, arctan2_self_pos ((Real.sqrt 2)⁻¹) ht, ht2,
        Real.sqrt_one]
      ring
    unfold bloch_vector
    rw [hs]
    norm_num [Real.sin_pi_div_two, Real.cos_pi_div_two]

noncomputable section

/-- qutip's Pauli-Z operator `qu.sigmaz()`. -/
def sigmaz : Matrix (Fin 2) (Fin 2) ℂ := !![1, 0; 0, -1]

/-- qutip's Pauli-Y operator `qu.sigmay()`. -/
def sigmay : Matrix (Fin 2) (Fin 2) ℂ := !![0, -Complex.I; Complex.I, 0]

/-- Embedding of `qubit_hamiltonian` (src/shed/hamiltonians.py):
`0.5 * freq * qu.sigmaz()`. -/
def qubit_hamiltonian (freq : ℝ) : Matrix (Fin 2) (Fin 2) ℂ :=
  ((0.5 * freq : ℝ) : ℂ) • sigmaz

end

lemma half_cast : ((0.5 : ℝ) : ℂ) = 1 / 2 := by norm_num

/-- C5: `qubit_hamiltonian freq` equals the diagonal matrix
`diag (freq/2, -freq/2)` in the computational basis; it is `freq/2` times
Pauli-Z, it is Hermitian, and the two standard basis vectors are
eigenvectors with eigenvalues `freq/2` and `-freq/2`. -/
theorem qubit_hamiltonian_spec (freq : ℝ) :
    qubit_hamiltonian freq = Matrix.diagonal ![(freq / 2 : ℂ), -(freq / 2 : ℂ)] ∧
    qubit_hamiltonian freq = ((freq / 2 : ℝ) : ℂ) • sigmaz ∧
    (qubit_hamiltonian freq).IsHermitian ∧
    qubit_hamiltonian freq *ᵥ (Pi.single 0 1 : Fin 2 → ℂ) =
      ((freq / 2 : ℝ) : ℂ) • (Pi.single 0 1 : Fin 2 → ℂ) ∧
    qubit_hamiltonian freq *ᵥ (Pi.single 1 1 : Fin 2 → ℂ) =
      (-((freq / 2 : ℝ) : ℂ)) • (Pi.single 1 1 : Fin 2 → ℂ) := by
  have hdiag : qubit_hamiltonian freq =
      Matrix.diagonal ![(freq / 2 : ℂ), -(freq / 2 : ℂ)] := by
    ext i j
    fin_cases i <;> fin_cases j <;>
      simp [qubit_hamiltonian, sigmaz, Matrix.diagonal] <;> push_cast [half_cast] <;> ring
  refine ⟨hdiag, ?_, ?_, ?_, ?_⟩
  · unfold qubit_hamiltonian
    congr 1
    push_cast [half_cast]
    ring
  · rw [hdiag, Matrix.isHermitian_diagonal_iff]
    intro i
    fin_cases i <;>
      simp [IsSelfAdjoint, Complex.star_def, Complex.conj_ofReal, map_div₀]
  · rw [hdiag, Matrix.diagonal_mulVec_single]
    ext i
    fin_cases i <;> simp [Pi.single_apply]
  · rw [hdiag, Matrix.diagonal_mulVec_single]
    ext i
    fin_cases i <;> simp [Pi.single_apply]

noncomputable section

/-- qutip's annihilation operator `qu.destroy(d)`: `sqrt j` on the
superdiagonal, entry `(j-1, j)`. -/
def destroy (d : ℕ) : Matrix (Fin d) (Fin d) ℂ :=
  Matrix.of fun i j => if (i : ℕ) + 1 = (j : ℕ) then ((Real.sqrt (j : ℕ) : ℝ) : ℂ) else 0

/-- The number operator `N = a† a`: the diagonal matrix of level indices. -/
def numberOp (d : ℕ) : Matrix (Fin d) (Fin d) ℂ :=
  Matrix.diagonal fun i => ((i : ℕ) : ℂ)

/-- Embedding of `transmon_hamiltonian` (src/shed/hamiltonians.py):
`freq * at * a + 0.5 * anharm * at * at * a * a` with `a = qu.destroy(dim)`
and `at = a.dag()`. -/
def transmon_hamiltonian (freq anharm : ℝ) (dim : ℕ) :
    Matrix (Fin dim) (Fin dim) ℂ :=
  let a := destroy dim
  let adag := aᴴ
  (freq : ℂ) • (adag * a) + ((0.5 * anharm : ℝ) : ℂ) • (adag * adag * a * a)

end

lemma destroy_dag_mul_destroy (d : ℕ) : (destroy d)ᴴ * destroy d = numberOp d := by
  ext i j
  rw [Matrix.mul_apply]
  by_cases hij : i = j
  · subst hij
    rcases h0 : (i : ℕ) with _ | m
    · rw [Finset.sum_eq_zero, numberOp, Matrix.diagonal_apply_eq, h0]
      · simp
      · intro k _
        simp [destroy, Matrix.conjTranspose_apply, h0]
    · have hm : m < d := by have := i.isLt; omega
      rw [Finset.sum_eq_single ⟨m, hm⟩]
      · simp only [destroy, numberOp, Matrix.conjTranspose_apply, Matrix.of_apply,
          Matrix.diagonal_apply_eq, h0]
        simp only [show m + 1 = (i : ℕ) from h0.symm, if_true]
        rw [Complex.star_def, Complex.conj_ofReal, ← Complex.ofReal_mul,
          Real.mul_self_sqrt (Nat.cast_nonneg _)]
        norm_cast
      · intro k _ hk
        have hne : ¬ ((k : ℕ) + 1 = (i : ℕ)) := by
          rw [h0]
          intro hc
          have hkm : (k : ℕ) = m := by omega
          exact hk (Fin.ext hkm)
        simp [destroy, Matrix.conjTranspose_apply, hne]
      · intro habs
        exact absurd (Finset.mem_univ _) habs
  · rw [Finset.sum_eq_zero, numberOp, Matrix.diagonal_apply_ne _ hij]
    intro k _
    simp only [destroy, Matrix.conjTranspose_apply, Matrix.of_apply]
    split_ifs <;> first | exact absurd (Fin.ext (by omega)) hij | simp

lemma destroy_dag_num_destroy (d : ℕ) :
    (destroy d)ᴴ * numberOp d * destroy d =
      Matrix.diagonal fun i : Fin d => ((i : ℕ) : ℂ) * (((i : ℕ) : ℂ) - 1) := by
  ext i j
  rw [Matrix.mul_apply]
  by_cases hij : i = j
  · subst hij
    rcases h0 : (i : ℕ) with _ | m
    · rw [Finset.sum_eq_zero, Matrix.diagonal_apply_eq, h0]
      · simp
      · intro k _
        have hz : destroy d k i = 0 := by simp [destroy, h0]
        rw [hz, mul_zero]
    · have hm : m < d := by have := i.isLt; omega
      rw [Finset.sum_eq_single ⟨m, hm⟩]
      · rw [numberOp, Matrix.mul_diagonal, Matrix.diagonal_apply_eq]
        simp only [destroy, Matrix.conjTranspose_apply, Matrix.of_apply]
        simp only [show m + 1 = (i : ℕ) from h0.symm, if_true]
        rw [Complex.star_def, Complex.conj_ofReal]
        have hx : ((Real.sqrt ((i : ℕ) : ℝ) : ℝ) : ℂ) *
            ((Real.sqrt ((i : ℕ) : ℝ) : ℝ) : ℂ) = (((i : ℕ) : ℕ) : ℂ) := by
          rw [← Complex.ofReal_mul, Real.mul_self_sqrt (Nat.cast_nonneg _)]
          norm_cast
        have hn : (((i : ℕ) : ℕ) : ℂ) = ((m : ℕ) : ℂ) + 1 := by
          rw [h0]
          push_cast
          ring
        linear_combination ((m : ℕ) : ℂ) * hx - (((i : ℕ) : ℕ) : ℂ) * hn
      · intro k _ hk
        have hne : ¬ ((k : ℕ) + 1 = (i : ℕ)) := by
          rw [h0]
          intro hc
          have hkm : (k : ℕ) = m := by omega
          exact hk (Fin.ext hkm)
        have hz : destroy d k i = 0 := by simp [destroy, hne]
        rw [hz, mul_zero]
      · intro habs
        exact absurd (Finset.mem_univ _) habs
  · rw [Finset.sum_eq_zero, Matrix.diagonal_apply_ne _ hij]
    intro k _
    rw [numberOp, Matrix.mul_diagonal]
    simp only [destroy, Matrix.conjTranspose_apply, Matrix.of_apply]
    split_ifs <;> first | exact absurd (Fin.ext (by omega)) hij | simp

lemma destroy_dag_sq_mul_destroy_sq (d : ℕ) :
    (destroy d)ᴴ * (destroy d)ᴴ * destroy d * destroy d =
      Matrix.diagonal fun i : Fin d => ((i : ℕ) : ℂ) * (((i : ℕ) : ℂ) - 1) := by
  calc (destroy d)ᴴ * (destroy d)ᴴ * destroy d * destroy d
      = (destroy d)ᴴ * ((destroy d)ᴴ * destroy d) * destroy d := by
        rw [Matrix.mul_assoc ((destroy d)ᴴ) ((destroy d)ᴴ) (destroy d)]
    _ = (destroy d)ᴴ * numberOp d * destroy d := by rw [destroy_dag_mul_destroy]
    _ = Matrix.diagonal fun i : Fin d => ((i : ℕ) : ℂ) * (((i : ℕ) : ℂ) - 1) :=
        destroy_dag_num_destroy d

/-- C6: for all `freq`, `anharm` and `dim ≥ 2`, `transmon_hamiltonian`
equals `freq·N + (anharm/2)·N·(N−1)` for the number operator `N`; with
`freq = 0` it is diagonal with eigenvalues `(anharm/2)·n·(n−1)` for level
index `n = 0..dim−1`. -/
theorem transmon_hamiltonian_spec (freq anharm : ℝ) (dim : ℕ) (h : 2 ≤ dim) :
    transmon_hamiltonian freq anharm dim =
      (freq : ℂ) • numberOp dim +
        ((anharm / 2 : ℝ) : ℂ) • (numberOp dim * (numberOp dim - 1)) ∧
    transmon_hamiltonian 0 anharm dim =
      Matrix.diagonal fun n : Fin dim =>
        ((anharm / 2 : ℝ) : ℂ) * ((n : ℕ) : ℂ) * (((n : ℕ) : ℂ) - 1) := by
  have hN : numberOp dim * (numberOp dim - 1) =
      Matrix.diagonal fun i : Fin dim => ((i : ℕ) : ℂ) * (((i : ℕ) : ℂ) - 1) := by
    rw [numberOp, ← Matrix.diagonal_one, Matrix.diagonal_sub, Matrix.diagonal_mul_diagonal]
  have key : ∀ f : ℝ, transmon_hamiltonian f anharm dim =
      (f : ℂ) • numberOp dim +
        ((anharm / 2 : ℝ) : ℂ) • (numberOp dim * (numberOp dim - 1)) := by
    intro f
    simp only [transmon_hamiltonian]
    rw [destroy_dag_mul_destroy, destroy_dag_sq_mul_destroy_sq, hN]
    congr 1
    congr 1
    push_cast [half_cast]
    ring
  refine ⟨key freq, ?_⟩
  rw [key 0, hN]
  ext i j
  by_cases hij : i = j
  · subst hij
    simp only [Matrix.add_apply, Matrix.smul_apply, Matrix.diagonal_apply_eq,
      Complex.ofReal_zero, zero_smul, Matrix.zero_apply, zero_add, smul_eq_mul]
    ring
  · simp only [Matrix.add_apply, Matrix.smul_apply, Matrix.diagonal_apply_ne _ hij,
      Complex.ofReal_zero, zero_smul, Matrix.zero_apply, zero_add, smul_zero]

/-- Witness for C6 at `freq = 1`, `anharm = 2`, `dim = 3`. -/
theorem transmon_hamiltonian_spec_witness :
    2 ≤ 3 ∧
    (transmon_hamiltonian 1 2 3 =
      ((1 : ℝ) : ℂ) • numberOp 3 +
        ((2 / 2 : ℝ) : ℂ) • (numberOp 3 * (numberOp 3 - 1)) ∧
    transmon_hamiltonian 0 2 3 =
      Matrix.diagonal fun n : Fin 3 =>
        ((2 / 2 : ℝ) : ℂ) * ((n : ℕ) : ℂ) * (((n : ℕ) : ℂ) - 1)) :=
  ⟨by norm_num, transmon_hamiltonian_spec 1 2 3 (by norm_num)⟩

/-- The argument package handed to the external solver `qu.mesolve` for a
time-independent Hamiltonian: Hamiltonian, initial state, sample times. -/
structure MESolveInput (d : ℕ) where
  H : Matrix (Fin d) (Fin d) ℂ
  state0 : Fin d → ℂ
  times : List ℝ

/-- The argument package handed to `qu.mesolve` for a Hamiltonian given in
qutip list form `[Hconst, [Hdrive, coeff]]`, denoting
`H(t) = Hconst + coeff(t) * Hdrive`. -/
structure TDMESolveInput (d : ℕ) where
  Hconst : Matrix (Fin d) (Fin d) ℂ
  Hdrive : Matrix (Fin d) (Fin d) ℂ
  driveCoeff : ℝ → ℝ
  state0 : Fin d → ℂ
  times : List ℝ

/-- qutip's `qu.basis(d, n)`: the standard basis column vector. -/
def basis (d n : ℕ) : Fin d → ℂ :=
  fun i => if (i : ℕ) = n then 1 else 0

/-- The total Hamiltonian denoted by a qutip list-form package at time `t`. -/
noncomputable def hamiltonianAt {d : ℕ} (s : TDMESolveInput d) (t : ℝ) :
    Matrix (Fin d) (Fin d) ℂ :=
  s.Hconst + ((s.driveCoeff t : ℝ) : ℂ) • s.Hdrive

/-- Embedding of `simulate_pi_pulse` (src/shed/control.py).  The call
`qu.mesolve(2 * np.pi * H, qu.basis(dim, 0), time_points)` is modelled by
returning the solver's argument package. -/
noncomputable def simulate_pi_pulse (anharm rabi_freq : ℝ) (time_points : List ℝ)
    (drive_phase : ℝ) : MESolveInput 10 :=
  let dim := 10
  let a := destroy dim
  let adag := aᴴ
  let H0 := transmon_hamiltonian 0 anharm dim
  let H1 := ((0.5 * rabi_freq : ℝ) : ℂ) •
    (((Real.cos drive_phase : ℝ) : ℂ) • (a + adag) -
      (Complex.I * ((Real.sin drive_phase : ℝ) : ℂ)) • (a - adag))
  let H := H0 + H1
  ⟨((2 * Real.pi : ℝ) : ℂ) • H, basis dim 0, time_points⟩

/-- Embedding of `evolve_xy_driven_qubit` (src/shed/control.py).  The
string coefficient `f"cos({2πf} * t + {2πφ})"` is modelled as the real
function of `t` that it denotes. -/
noncomputable def evolve_xy_driven_qubit (time_points : List ℝ)
    (qubit_freq rabi_freq drive_freq drive_phase : ℝ) : TDMESolveInput 2 :=
  let H0 := qubit_hamiltonian qubit_freq
  let H1 := (rabi_freq : ℂ) • sigmay
  ⟨((2 * Real.pi : ℝ) : ℂ) • H0,
   ((2 * Real.pi : ℝ) : ℂ) • H1,
   fun t => Real.cos (2 * Real.pi * drive_freq * t + 2 * Real.pi * drive_phase),
   basis 2 0,
   time_points⟩

/-- C7: `simulate_pi_pulse` hands the solver the time-independent
Hamiltonian `2π·(H0 + 0.5·rabi·(cos φ·(a + a†) − i·sin φ·(a − a†)))` with
`H0 = transmon_hamiltonian 0 anharm 10` on the fixed 10-level transmon,
starting from the ground (level-0) basis state, sampled at `time_points`. -/
theorem simulate_pi_pulse_spec (anharm rabi_freq : ℝ) (time_points : List ℝ)
    (drive_phase : ℝ) :
    (simulate_pi_pulse anharm rabi_freq time_points drive_phase).H =
      ((2 * Real.pi : ℝ) : ℂ) • (transmon_hamiltonian 0 anharm 10 +
        ((rabi_freq / 2 : ℝ) : ℂ) •
          (((Real.cos drive_phase : ℝ) : ℂ) • (destroy 10 + (destroy 10)ᴴ) -
            Complex.I • (((Real.sin drive_phase : ℝ) : ℂ) • (destroy 10 - (destroy 10)ᴴ)))) ∧
    (simulate_pi_pulse anharm rabi_freq time_points drive_phase).state0 = basis 10 0 ∧
    (simulate_pi_pulse anharm rabi_freq time_points drive_phase).times = time_points := by
  refine ⟨?_, rfl, rfl⟩
  simp only [simulate_pi_pulse]
  rw [smul_smul]
  congr 2
  push_cast [half_cast]
  ring_nf

/-- C8: `evolve_xy_driven_qubit` hands the solver the time-dependent
Hamiltonian `H(t) = 2π·H0 + cos(2π·drive_freq·t + 2π·drive_phase)·(2π·H1)`
with `H0 = qubit_hamiltonian qubit_freq` and `H1 = rabi_freq·σy`, starting
from the two-level ground state, sampled at the caller's `time_points`. -/
theorem evolve_xy_driven_qubit_spec (time_points : List ℝ)
    (qubit_freq rabi_freq drive_freq drive_phase t : ℝ) :
    hamiltonianAt
        (evolve_xy_driven_qubit time_points qubit_freq rabi_freq drive_freq drive_phase) t =
      ((2 * Real.pi : ℝ) : ℂ) • qubit_hamiltonian qubit_freq +
        ((Real.cos (2 * Real.pi * drive_freq * t + 2 * Real.pi * drive_phase) : ℝ) : ℂ) •
          (((2 * Real.pi : ℝ) : ℂ) • ((rabi_freq : ℂ) • sigmay)) ∧
    (evolve_xy_driven_qubit time_points qubit_freq rabi_freq drive_freq drive_phase).state0 =
      basis 2 0 ∧
    (evolve_xy_driven_qubit time_points qubit_freq rabi_freq drive_freq drive_phase).times =
      time_points :=
  ⟨rfl, rfl, rfl⟩

/-- A plotly `Scatter3d` trace with the attributes `add_states` sets:
point coordinates, draw mode, marker colors (the z column), marker size,
hover info and legend visibility. -/
structure Trace where
  x : List ℝ
  y : List ℝ
  z : List ℝ
  mode : String
  markerColor : List ℝ
  markerSize : ℕ
  hoverinfo : String
  showlegend : Bool

/-- A plotly `Figure`: an ordered list of traces; `fig.add_trace` appends. -/
structure Figure where
  traces : List Trace

/-- Embedding of `add_states` (src/shed/bloch_sphere.py).  The column
indexing `vectors[:, 0]` on the empty stacked numpy array raises
`IndexError` when `states` is empty; that failure is modelled as `none`. -/
noncomputable def add_states (fig : Figure) (states : List (List ℂ)) (mode : String) :
    Option Figure :=
  let vectors := states.map bloch_vector
  if vectors.isEmpty then none
  else some ⟨fig.traces ++
    [{ x := vectors.map fun v => v.1
       y := vectors.map fun v => v.2.1
       z := vectors.map fun v => v.2.2
       mode := mode
       markerColor := vectors.map fun v => v.2.2
       markerSize := 2
       hoverinfo := "none"
       showlegend := false }]⟩

/-- C9 counterexample: on the empty sequence of states, `add_states` fails
instead of producing a figure with one appended trace, so the claim does
not hold for *every* sequence of states. -/
theorem add_states_empty_counterexample :
    ¬ ∃ tr : Trace, add_states ⟨[]⟩ [] "markers" = some ⟨[] ++ [tr]⟩ := by
  rintro ⟨tr, htr⟩
  simp [add_states] at htr

/-- C9 (amended): for every figure and every NON-EMPTY ordered sequence of
states, one call to `add_states` appends exactly one batched trace to the
figure regardless of how many states are passed, and leaves every trace
already present unchanged (the new trace list is the old one with a single
trace appended at the end). -/
theorem add_states_appends_single_trace (fig : Figure) (states : List (List ℂ))
    (mode : String) (h : states ≠ []) :
    add_states fig states mode = some ⟨fig.traces ++
      [{ x := (states.map bloch_vector).map fun v => v.1
         y := (states.map bloch_vector).map fun v => v.2.1
         z := (states.map bloch_vector).map fun v => v.2.2
         mode := mode
         markerColor := (states.map bloch_vector).map fun v => v.2.2
         markerSize := 2
         hoverinfo := "none"
         showlegend := false }]⟩ := by
  have hne : (states.map bloch_vector).isEmpty = false := by
    cases states with
    | nil => exact absurd rfl h
    | cons s ss => rfl
  simp [add_states, hne]

/-- A figure holding one pre-existing trace, for the C9 witness. -/
def sampleFigure : Figure :=
  ⟨[⟨[], [], [], "lines", [], 0, "none", false⟩]⟩

/-- Witness for the amended C9: one state appended to a figure that already
holds a trace. -/
theorem add_states_appends_single_trace_witness :
    ([[1, 0]] : List (List ℂ)) ≠ [] ∧
    add_states sampleFigure [[1, 0]] "markers" = some ⟨sampleFigure.traces ++
      [{ x := (([[1, 0]] : List (List ℂ)).map bloch_vector).map fun v => v.1
         y := (([[1, 0]] : List (List ℂ)).map bloch_vector).map fun v => v.2.1
         z := (([[1, 0]] : List (List ℂ)).map bloch_vector).map fun v => v.2.2
         mode := "markers"
         markerColor := (([[1, 0]] : List (List ℂ)).map bloch_vector).map fun v => v.2.2
         markerSize := 2
         hoverinfo := "none"
         showlegend := false }]⟩ :=
  ⟨by simp, add_states_appends_single_trace sampleFigure [[1, 0]] "markers" (by simp)⟩

/-- C10: calling `add_states` with an empty sequence of states fails (the
empty-array column indexing raises an `IndexError`, modelled as `none`)
rather than appending an empty trace, for every figure and mode. -/
theorem add_states_requires_nonempty (fig : Figure) (mode : String) :
    add_states fig [] mode = none := by
  simp [add_states]
